import Mathlib

/-!
Shallow embedding of the Block-Chain-Based-E-vault-for-Legal-Records
repository (src/blockchain/blockchain.py, src/blockchain/auth.py,
src/blockchain/persistence.py, src/blockchain/evault_controller.py,
src/storage-works/document_storage.py).

Modelling conventions:
* Python dict-shaped transactions are association lists `Tx` over a JSON-ish
  value type `JVal`; `txGet` models `dict.get`, `txSet` models `d[k] = v`.
* `hashlib.sha256(json.dumps({...}, sort_keys=True)).hexdigest()` over the
  five block fields is modelled by a hash parameter `H : HashInput → String`.
  Where a claim needs collision-freeness of SHA-256 (plus injectivity of the
  canonical JSON encoding) it takes `Function.Injective H` as a hypothesis.
  A concrete injective instance `H₀` is built below from an executable
  injective encoder, so every such hypothesis is satisfiable.
* `time.time()` is passed in as an explicit `now : Nat` argument.
* The unbounded proof-of-work loop `Block.mine_block` is given fuel; `none`
  means the loop has not yet found a nonce within the fuel.
* AES-256-CBC encryption/decryption (library calls, not repository code) are
  parameters `E`, `D`; claims that need decryption to invert encryption take
  `∀ k iv m, D k iv (E k iv m) = m` as a hypothesis.  PKCS#7 padding
  (`Crypto.Util.Padding.pad/unpad` with block size 16) is embedded concretely.
* File-system side effects (`json.dump` to disk) are not part of any claim's
  observable behaviour and are dropped; in-memory dicts (`metadata`,
  ciphertext files keyed by hash, `users`, `sessions`) are function maps
  `String → Option _`.
-/

/-- JSON-ish values stored in transaction dicts: strings and numeric
timestamps/indices. -/
inductive JVal where
  | str (s : String)
  | num (n : Nat)
deriving DecidableEq, Repr

/-- A transaction: a Python dict, modelled as an insertion-ordered
association list. -/
abbrev Tx := List (String × JVal)

/-- `dict.get(key)`: first binding of `key`, if any. -/
def txGet : Tx → String → Option JVal
  | [], _ => none
  | (k, v) :: rest, key => if k = key then some v else txGet rest key

/-- `d[key] = v` on a dict: replace the binding if the key is present
(Python dicts keep insertion order), else append it. -/
def txSet (tx : Tx) (key : String) (v : JVal) : Tx :=
  if (txGet tx key).isSome then
    tx.map (fun p => if p.1 = key then (key, v) else p)
  else
    tx ++ [(key, v)]

/-- The five stored fields that `Block.calculate_hash` serialises and
digests (blockchain.py lines 16-26). -/
structure HashInput where
  index : Nat
  timestamp : Nat
  transactions : List Tx
  previous_hash : String
  nonce : Nat
deriving DecidableEq, Repr

/-- A block with its six stored fields (blockchain.py lines 6-14). -/
structure Block where
  index : Nat
  timestamp : Nat
  transactions : List Tx
  previous_hash : String
  nonce : Nat
  hash : String
deriving DecidableEq, Repr

/-- `Block.calculate_hash`: digest of the five stored fields (the stored
`hash` itself is not part of the input). -/
def Block.calculate_hash (H : HashInput → String) (b : Block) : String :=
  H ⟨b.index, b.timestamp, b.transactions, b.previous_hash, b.nonce⟩

/-- The `Block.__init__` constructor: nonce 0 and hash freshly computed. -/
def Block.mk_new (H : HashInput → String) (index timestamp : Nat)
    (transactions : List Tx) (previous_hash : String) : Block :=
  { index := index, timestamp := timestamp, transactions := transactions,
    previous_hash := previous_hash, nonce := 0,
    hash := H ⟨index, timestamp, transactions, previous_hash, 0⟩ }

/-- Python string slicing `s[:n]`: the first `n` characters. -/
def strTake (s : String) (n : Nat) : String := String.mk (s.data.take n)

/-- The mining target `"0" * difficulty`. -/
def zeroTarget (difficulty : Nat) : String :=
  String.mk (List.replicate difficulty '0')

/-- `Block.mine_block` (blockchain.py lines 28-33): repeatedly increment the
nonce and recompute the hash until the hash starts with `difficulty` zero
characters.  The Python loop is unbounded; `fuel` bounds the embedding and
`none` means the search is still running. -/
def mineAux (H : HashInput → String) (difficulty : Nat) :
    Nat → Block → Option Block
  | fuel, b =>
    if strTake b.hash difficulty = zeroTarget difficulty then some b
    else
      match fuel with
      | 0 => none
      | fuel + 1 =>
          mineAux H difficulty fuel
            { b with nonce := b.nonce + 1,
                     hash := Block.calculate_hash H { b with nonce := b.nonce + 1 } }

/-- The ledger state (blockchain.py lines 46-50). -/
structure Blockchain where
  chain : List Block
  difficulty : Nat
  pending_transactions : List Tx
deriving DecidableEq, Repr

/-- `Blockchain.create_genesis_block`: `Block(0, time.time(), [], "0")`. -/
def Blockchain.create_genesis_block (H : HashInput → String) (now : Nat) : Block :=
  Block.mk_new H 0 now [] "0"

/-- `Blockchain.__init__`: a fresh ledger with just the genesis block,
difficulty 2 and no pending transactions. -/
def Blockchain.init (H : HashInput → String) (now : Nat) : Blockchain :=
  { chain := [Blockchain.create_genesis_block H now], difficulty := 2,
    pending_transactions := [] }

/-- `Blockchain.get_latest_block`: `self.chain[-1]`; `none` models the
IndexError on an empty chain. -/
def Blockchain.get_latest_block (bc : Blockchain) : Option Block :=
  bc.chain.getLast?

/-- `Blockchain.add_block` (lines 60-71): build a candidate on top of the
tip, mine it, append it.  `none` models either the IndexError on an empty
chain or the mining loop still searching. -/
def Blockchain.add_block (H : HashInput → String) (fuel : Nat) (bc : Blockchain)
    (transactions : List Tx) (now : Nat) : Option (Blockchain × Block) :=
  match bc.chain.getLast? with
  | none => none
  | some latest =>
    match mineAux H bc.difficulty fuel
        (Block.mk_new H (latest.index + 1) now transactions latest.hash) with
    | none => none
    | some b => some ({ bc with chain := bc.chain ++ [b] }, b)

/-- `Blockchain.add_transaction` (lines 73-76): append to the pending
buffer.  (The Python return value `latest.index + 1` plays no role in any
claim and is dropped.) -/
def Blockchain.add_transaction (bc : Blockchain) (tx : Tx) : Blockchain :=
  { bc with pending_transactions := bc.pending_transactions ++ [tx] }

/-- `Blockchain.mine_pending_transactions` (lines 78-85): no-op returning
`None` on an empty buffer, otherwise seal the buffer into one mined block
and clear it.  The outer `none` models the unbounded mining loop still
searching (or an empty chain). -/
def Blockchain.mine_pending_transactions (H : HashInput → String) (fuel : Nat)
    (bc : Blockchain) (now : Nat) : Option (Blockchain × Option Block) :=
  if bc.pending_transactions = [] then some (bc, none)
  else
    match Blockchain.add_block H fuel bc bc.pending_transactions now with
    | none => none
    | some (bc', b) => some ({ bc' with pending_transactions := [] }, some b)

/-- Loop body of `Blockchain.is_chain_valid` (lines 87-101): walk the chain
from position 1 with `prev` the predecessor, checking stored hash against
the recomputed digest and the `previous_hash` link; false at the first
mismatch. -/
def chainValidFrom (H : HashInput → String) : Block → List Block → Bool
  | _, [] => true
  | prev, b :: rest =>
    if b.hash = Block.calculate_hash H b then
      if b.previous_hash = prev.hash then chainValidFrom H b rest
      else false
    else false

/-- `Blockchain.is_chain_valid`: the loop starts at index 1, so the genesis
block's own hash is never rechecked. -/
def Blockchain.is_chain_valid (H : HashInput → String) (bc : Blockchain) : Bool :=
  match bc.chain with
  | [] => true
  | g :: rest => chainValidFrom H g rest

/-- `Blockchain.get_block_by_hash` (lines 103-108). -/
def Blockchain.get_block_by_hash (bc : Blockchain) (hash_value : String) :
    Option Block :=
  bc.chain.find? (fun b => b.hash = hash_value)

/-- Nested scan over all blocks, concatenating per-block hits in chain
order (the shape of both Python scans). -/
def scanBlocks (f : Block → List Tx) : List Block → List Tx
  | [] => []
  | b :: rest => f b ++ scanBlocks f rest

/-- `Blockchain.get_transactions_by_user` (lines 110-120): keep transactions
whose `"user_id"` entry equals the given id, decorating a copy with the
containing block's hash and (overwriting the transaction's own entry)
the block timestamp. -/
def Blockchain.get_transactions_by_user (bc : Blockchain) (user_id : String) :
    List Tx :=
  scanBlocks
    (fun b =>
      (b.transactions.filter
          (fun tx => decide (txGet tx "user_id" = some (JVal.str user_id)))).map
        (fun tx => txSet (txSet tx "block_hash" (JVal.str b.hash))
          "timestamp" (JVal.num b.timestamp)))
    bc.chain

/-- Serialised block shape in `blockchain.json` (`Block.to_dict`). -/
structure BlockData where
  index : Nat
  timestamp : Nat
  transactions : List Tx
  previous_hash : String
  nonce : Nat
  hash : String
deriving DecidableEq, Repr

/-- Rebuild one block in `Blockchain.from_dict` (lines 138-145): the
constructor-computed hash is immediately overwritten by the stored nonce
and hash, so the result is exactly the stored fields. -/
def Block.ofData (d : BlockData) : Block :=
  { index := d.index, timestamp := d.timestamp, transactions := d.transactions,
    previous_hash := d.previous_hash, nonce := d.nonce, hash := d.hash }

/-- Parsed `blockchain.json` top level; `Option` fields model `dict.get`
with defaults in `Blockchain.from_dict`. -/
structure BCData where
  chain : Option (List BlockData)
  pending_transactions : Option (List Tx)
  difficulty : Option Nat

/-- `Blockchain.from_dict` (lines 130-146). -/
def Blockchain.from_dict (data : BCData) : Blockchain :=
  { difficulty := data.difficulty.getD 2,
    pending_transactions := data.pending_transactions.getD [],
    chain := (data.chain.getD []).map Block.ofData }

/-- `BlockchainPersistence.load_blockchain` (persistence.py lines 18-29).
`snapshot = none`: no snapshot file exists; `some none`: the file exists but
`json.load` raises `JSONDecodeError`; `some (some data)`: parsed contents.
The fresh `Blockchain()` is built first and kept on both failure paths. -/
def load_blockchain (H : HashInput → String) (now : Nat)
    (snapshot : Option (Option BCData)) : Blockchain :=
  match snapshot with
  | none => Blockchain.init H now
  | some none => Blockchain.init H now
  | some (some data) => Blockchain.from_dict data

/-- A single-field in-place mutation of a stored block, used to state the
tamper-evidence claims. -/
inductive Mutation where
  | setIndex (v : Nat)
  | setTimestamp (v : Nat)
  | setTransactions (v : List Tx)
  | setPrev (v : String)
  | setNonce (v : Nat)
  | setHash (v : String)
deriving DecidableEq, Repr

/-- Apply a mutation to one block. -/
def applyMutation : Mutation → Block → Block
  | .setIndex v, b => { b with index := v }
  | .setTimestamp v, b => { b with timestamp := v }
  | .setTransactions v, b => { b with transactions := v }
  | .setPrev v, b => { b with previous_hash := v }
  | .setNonce v, b => { b with nonce := v }
  | .setHash v, b => { b with hash := v }

/-- The mutation actually changes the targeted stored field. -/
def mutationChanges : Mutation → Block → Prop
  | .setIndex v, b => v ≠ b.index
  | .setTimestamp v, b => v ≠ b.timestamp
  | .setTransactions v, b => v ≠ b.transactions
  | .setPrev v, b => v ≠ b.previous_hash
  | .setNonce v, b => v ≠ b.nonce
  | .setHash v, b => v ≠ b.hash

instance mutationChangesDec (m : Mutation) (b : Block) :
    Decidable (mutationChanges m b) :=
  match m with
  | .setIndex v => inferInstanceAs (Decidable (v ≠ b.index))
  | .setTimestamp v => inferInstanceAs (Decidable (v ≠ b.timestamp))
  | .setTransactions v => inferInstanceAs (Decidable (v ≠ b.transactions))
  | .setPrev v => inferInstanceAs (Decidable (v ≠ b.previous_hash))
  | .setNonce v => inferInstanceAs (Decidable (v ≠ b.nonce))
  | .setHash v => inferInstanceAs (Decidable (v ≠ b.hash))

/-- Mutate the block at position `i` of the chain (no-op out of range). -/
def mutateAt (bc : Blockchain) (i : Nat) (m : Mutation) : Blockchain :=
  { bc with chain :=
      match bc.chain.get? i with
      | some b => bc.chain.set i (applyMutation m b)
      | none => bc.chain }

/-- Ledgers reachable by the ledger operations of the claims: genesis
creation, `add_transaction`, and a completed `mine_pending_transactions`. -/
inductive Reachable (H : HashInput → String) : Blockchain → Prop where
  | genesis (now : Nat) : Reachable H (Blockchain.init H now)
  | addTx {bc : Blockchain} (tx : Tx) :
      Reachable H bc → Reachable H (Blockchain.add_transaction bc tx)
  | mine {bc bc' : Blockchain} {r : Option Block} (fuel now : Nat) :
      Reachable H bc →
      Blockchain.mine_pending_transactions H fuel bc now = some (bc', r) →
      Reachable H bc'

/-- PKCS#7 padding with the AES block size 16 (`Crypto.Util.Padding.pad`):
append `k = 16 - len % 16` bytes of value `k` (so 16 whole bytes for an
empty or block-aligned input). -/
def pad (b : List Nat) : List Nat :=
  b ++ List.replicate (16 - b.length % 16) (16 - b.length % 16)

/-- PKCS#7 unpadding (`Crypto.Util.Padding.unpad`): read the final byte as
the padding length `k`, demand a non-empty input of length a positive
multiple of 16 whose last `k` bytes all equal `k`, and strip them; `none`
models the `ValueError` on malformed padding. -/
def unpad (bytes : List Nat) : Option (List Nat) :=
  match bytes.getLast? with
  | none => none
  | some k =>
    if k = 0 ∨ 16 < k ∨ bytes.length < k ∨ bytes.length % 16 ≠ 0 then none
    else if bytes.drop (bytes.length - k) = List.replicate k k then
      some (bytes.take (bytes.length - k))
    else none

/-- One entry of `documents/metadata.json` (document_storage.py lines
61-70).  `iv` and `encryption_key` are kept as raw bytes; the base64
encode/decode pair the Python code wraps them in is an inverse pair of
plain re-encodings and is dropped. -/
structure DocRecord where
  user_id : String
  name : String
  type : String
  hash : String
  size : Nat
  created_at : Nat
  iv : List Nat
  encryption_key : List Nat
deriving DecidableEq, Repr

/-- The object store state: the metadata dict and the ciphertext files
under `documents/<content_hash>`, both keyed by content hash. -/
structure DocumentStorage where
  metadata : String → Option DocRecord
  files : String → Option (List Nat)

/-- A storage with no documents. -/
def emptyStorage : DocumentStorage :=
  { metadata := fun _ => none, files := fun _ => none }

/-- Error kinds surfaced by the storage and controller operations (spec §7
names; the Python code raises `ValueError` with matching messages).
`noFuel` is not a Python error: it models a mining loop that has not yet
terminated within the fuel given to the embedding. -/
inductive VError where
  | notFound
  | integrityFailure
  | invalidSession
  | accessDenied
  | recipientNotFound
  | noFuel
deriving DecidableEq, Repr

/-- `DocumentStorage.store_document` (lines 47-81): choose the caller's key
or the fresh random one, hash the plaintext, encrypt the padded plaintext,
then overwrite both the ciphertext slot and the metadata slot at the
content hash.  `SHA` models `hashlib.sha256(...).hexdigest()`; `E` models
`AES.new(key, MODE_CBC).encrypt`; `freshKey` models `get_random_bytes(32)`
and `iv` the randomly generated `cipher.iv`. -/
def DocumentStorage.store_document (SHA : List Nat → String)
    (E : List Nat → List Nat → List Nat → List Nat) (S : DocumentStorage)
    (user_id document_name : String) (document_content : List Nat)
    (document_type : String) (encryption_key : Option (List Nat))
    (freshKey iv : List Nat) (now : Nat) : DocumentStorage × DocRecord :=
  let key := encryption_key.getD freshKey
  let document_hash := SHA document_content
  let encrypted_content := E key iv (pad document_content)
  let md : DocRecord :=
    { user_id := user_id, name := document_name, type := document_type,
      hash := document_hash, size := document_content.length,
      created_at := now, iv := iv, encryption_key := key }
  ({ metadata := fun h => if h = document_hash then some md else S.metadata h,
     files := fun h => if h = document_hash then some encrypted_content
                       else S.files h }, md)

/-- `DocumentStorage.retrieve_document` (lines 83-103): look up metadata and
ciphertext by hash, decrypt with the stored key and iv, strip the padding.
`D` models `AES.new(key, MODE_CBC, iv).decrypt`; the two `ValueError`s on
missing data map to `notFound` and the unpad failure to
`integrityFailure`. -/
def DocumentStorage.retrieve_document
    (D : List Nat → List Nat → List Nat → List Nat) (S : DocumentStorage)
    (document_hash : String) : Except VError (List Nat × DocRecord) :=
  match S.metadata document_hash with
  | none => .error .notFound
  | some md =>
    match S.files document_hash with
    | none => .error .notFound
    | some encrypted_content =>
      match unpad (D md.encryption_key md.iv encrypted_content) with
      | none => .error .integrityFailure
      | some pt => .ok (pt, md)

/-- Well-formedness the store operations maintain: every metadata entry
sits at its own content hash, records the plaintext length as `size`, and
has a ciphertext slot holding the encryption of that plaintext padded,
under the record's own key and iv. -/
def StorageWF (SHA : List Nat → String)
    (E : List Nat → List Nat → List Nat → List Nat) (S : DocumentStorage) : Prop :=
  ∀ h md, S.metadata h = some md →
    md.hash = h ∧
    ∃ content, SHA content = h ∧ md.size = content.length ∧
      S.files h = some (E md.encryption_key md.iv (pad content))

/-- One entry of `users.json` (auth.py lines 59-66). -/
structure UserData where
  user_id : String
  username : String
  email : String
  hashed_password : String
  salt : String
  role : String
deriving DecidableEq, Repr

/-- One entry of `sessions.json` (auth.py lines 86-89). -/
structure SessionData where
  user_id : String
  username : String
deriving DecidableEq, Repr

/-- The identity directory: `self.users` keyed by username and
`self.sessions` keyed by token. -/
structure UserAuth where
  users : String → Option UserData
  sessions : String → Option SessionData

/-- `UserAuth.get_user_by_session` (auth.py lines 102-113): unknown token →
`None`; token found but its recorded username no longer in `users` →
`None`; otherwise the user record. -/
def UserAuth.get_user_by_session (a : UserAuth) (session_token : String) :
    Option UserData :=
  match a.sessions session_token with
  | none => none
  | some session_data => a.users session_data.username

/-- The orchestrator state (`EVaultController.__init__`). -/
structure EVault where
  blockchain : Blockchain
  storage : DocumentStorage
  auth : UserAuth

/-- `EVaultController.upload_document` (evault_controller.py lines 35-69):
resolve the session, store under a fresh key, append an upload transaction,
seal a block, return the record.  (The persistence save touches only the
file system.) -/
def EVault.upload_document (H : HashInput → String) (SHA : List Nat → String)
    (E : List Nat → List Nat → List Nat → List Nat) (fuel : Nat) (v : EVault)
    (session_token document_name : String) (document_content : List Nat)
    (document_type : String) (freshKey iv : List Nat) (now : Nat) :
    Except VError (EVault × DocRecord) :=
  match UserAuth.get_user_by_session v.auth session_token with
  | none => .error .invalidSession
  | some u =>
    let p := DocumentStorage.store_document SHA E v.storage u.user_id
      document_name document_content document_type none freshKey iv now
    let tx : Tx :=
      [("type", JVal.str "document_upload"), ("user_id", JVal.str u.user_id),
       ("document_hash", JVal.str p.2.hash),
       ("document_name", JVal.str document_name),
       ("document_type", JVal.str document_type), ("timestamp", JVal.num now)]
    match Blockchain.mine_pending_transactions H fuel
        (Blockchain.add_transaction v.blockchain tx) now with
    | none => .error .noFuel
    | some q => .ok ({ v with storage := p.1, blockchain := q.1 }, p.2)

/-- `EVaultController.get_document` (lines 71-87): resolve the session,
retrieve by hash, then reject unless the record's owner is the session
user. -/
def EVault.get_document (D : List Nat → List Nat → List Nat → List Nat)
    (v : EVault) (session_token document_hash : String) :
    Except VError (List Nat × DocRecord) :=
  match UserAuth.get_user_by_session v.auth session_token with
  | none => .error .invalidSession
  | some u =>
    match DocumentStorage.retrieve_document D v.storage document_hash with
    | .error e => .error e
    | .ok pm =>
      if pm.2.user_id = u.user_id then .ok pm else .error .accessDenied

/-- `EVaultController.transfer_document` (lines 89-143): resolve the
session, check ownership via a first retrieve, find the recipient by
username (the Python loop over `users.items()` is a keyed lookup), build
the transfer transaction, retrieve the plaintext again, re-store it under
the recipient with the same key (overwriting the single record at the
content hash), then seal the transaction into a block. -/
def EVault.transfer_document (H : HashInput → String) (SHA : List Nat → String)
    (E D : List Nat → List Nat → List Nat → List Nat) (fuel : Nat) (v : EVault)
    (session_token document_hash recipient_username : String)
    (freshKey iv2 : List Nat) (now : Nat) :
    Except VError (EVault × DocRecord) :=
  match UserAuth.get_user_by_session v.auth session_token with
  | none => .error .invalidSession
  | some u =>
    match DocumentStorage.retrieve_document D v.storage document_hash with
    | .error e => .error e
    | .ok pm =>
      if pm.2.user_id = u.user_id then
        match v.auth.users recipient_username with
        | none => .error .recipientNotFound
        | some recipient_user =>
          let tx : Tx :=
            [("type", JVal.str "document_transfer"),
             ("sender_id", JVal.str u.user_id),
             ("recipient_id", JVal.str recipient_user.user_id),
             ("document_hash", JVal.str document_hash),
             ("document_name", JVal.str pm.2.name),
             ("timestamp", JVal.num now)]
          match DocumentStorage.retrieve_document D v.storage document_hash with
          | .error e => .error e
          | .ok pm2 =>
            let p := DocumentStorage.store_document SHA E v.storage
              recipient_user.user_id pm.2.name pm2.1 pm.2.type
              (some pm.2.encryption_key) freshKey iv2 now
            match Blockchain.mine_pending_transactions H fuel
                (Blockchain.add_transaction v.blockchain tx) now with
            | none => .error .noFuel
            | some q =>
              .ok ({ v with storage := p.1, blockchain := q.1 }, p.2)
      else .error .accessDenied

/-- `EVaultController.get_document_history` (lines 157-174): session-gated
scan decorating each transaction whose `"document_hash"` matches with the
containing block's hash and index (note: not its timestamp). -/
def EVault.get_document_history (v : EVault)
    (session_token document_hash : String) : Except VError (List Tx) :=
  match UserAuth.get_user_by_session v.auth session_token with
  | none => .error .invalidSession
  | some _ =>
    .ok (scanBlocks
      (fun b =>
        (b.transactions.filter
            (fun tx =>
              decide (txGet tx "document_hash" = some (JVal.str document_hash)))).map
          (fun tx => txSet (txSet tx "block_hash" (JVal.str b.hash))
            "block_index" (JVal.num b.index)))
      v.blockchain.chain)

/-!
Concrete witnesses for the abstract cryptographic parameters.  `H₀` is an
executable injective `HashInput → String` (little-endian binary digits with
explicit delimiters and length prefixes), so the `Function.Injective H`
hypotheses used by the tamper-evidence claims are satisfiable.  Every
`H₀` output starts with two `'0'` characters, so proof-of-work at the
default difficulty 2 succeeds at nonce 0 and concrete ledgers are cheap to
build.  `E₀`/`D₀` are an inverse cipher pair and `SHA₀` a concrete content
hash for the storage witnesses.
-/

/-- Little-endian binary digits of `n` as characters, with explicit fuel so
the kernel can evaluate it (`natChars` below supplies enough fuel). -/
def natCharsAux : Nat → Nat → List Char
  | 0, _ => []
  | fuel + 1, n =>
    if n = 0 then []
    else (if n % 2 = 1 then '1' else '0') :: natCharsAux fuel (n / 2)

/-- Little-endian binary digits of `n` (empty for 0). -/
def natChars (n : Nat) : List Char := natCharsAux n n

/-- Read little-endian binary digits back into a number. -/
def charsNat : List Char → Nat
  | [] => 0
  | c :: cs => (if c = '1' then 1 else 0) + 2 * charsNat cs

/-- Split a character list at the first `'e'` delimiter. -/
def splitE : List Char → List Char × List Char
  | [] => ([], [])
  | c :: cs =>
    if c = 'e' then ([], cs)
    else
      let p := splitE cs
      (c :: p.1, p.2)

/-- Self-delimiting encoding of a natural number: its binary digits
followed by the delimiter `'e'`. -/
def encN (n : Nat) : List Char := natChars n ++ ['e']

/-- Decode an `encN`-encoded number, returning it with the unread rest. -/
def decN (l : List Char) : Nat × List Char :=
  let p := splitE l
  (charsNat p.1, p.2)

/-- Length-prefixed encoding of a string. -/
def encS (s : String) : List Char := encN s.length ++ s.data

/-- Decode an `encS`-encoded string, returning it with the unread rest. -/
def decS (l : List Char) : String × List Char :=
  let p := decN l
  (String.mk (p.2.take p.1), p.2.drop p.1)

/-- Tagged encoding of a `JVal`. -/
def encJ : JVal → List Char
  | .str s => 's' :: encS s
  | .num n => 'd' :: encN n

/-- Decode an `encJ`-encoded value, returning it with the unread rest. -/
def decJ : List Char → JVal × List Char
  | [] => (.num 0, [])
  | c :: cs =>
    if c = 's' then
      let p := decS cs
      (.str p.1, p.2)
    else
      let p := decN cs
      (.num p.1, p.2)

/-- Encoding of one transaction entry. -/
def encP (p : String × JVal) : List Char := encS p.1 ++ encJ p.2

/-- Decode one transaction entry, returning it with the unread rest. -/
def decP (l : List Char) : (String × JVal) × List Char :=
  let q := decS l
  let q2 := decJ q.2
  ((q.1, q2.1), q2.2)

/-- Concatenate elementwise encodings. -/
def encLs (f : α → List Char) : List α → List Char
  | [] => []
  | x :: xs => f x ++ encLs f xs

/-- Decode a known number of elements, returning them with the unread
rest. -/
def decLs (g : List Char → α × List Char) : Nat → List Char → List α × List Char
  | 0, l => ([], l)
  | k + 1, l =>
    let p := g l
    let q := decLs g k p.2
    (p.1 :: q.1, q.2)

/-- Length-prefixed encoding of one transaction. -/
def encTx (tx : Tx) : List Char := encN tx.length ++ encLs encP tx

/-- Decode one transaction, returning it with the unread rest. -/
def decTx (l : List Char) : Tx × List Char :=
  let p := decN l
  decLs decP p.1 p.2

/-- Length-prefixed encoding of a transaction list. -/
def encTxs (ts : List Tx) : List Char := encN ts.length ++ encLs encTx ts

/-- Decode a transaction list, returning it with the unread rest. -/
def decTxs (l : List Char) : List Tx × List Char :=
  let p := decN l
  decLs decTx p.1 p.2

/-- Injective encoding of the five hashed block fields. -/
def encHI (x : HashInput) : List Char :=
  encN x.index ++ (encN x.timestamp ++ (encTxs x.transactions ++
    (encS x.previous_hash ++ encN x.nonce)))

/-- Decode an `encHI`-encoded `HashInput`, returning it with the unread
rest. -/
def decHI (l : List Char) : HashInput × List Char :=
  let p1 := decN l
  let p2 := decN p1.2
  let p3 := decTxs p2.2
  let p4 := decS p3.2
  let p5 := decN p4.2
  (⟨p1.1, p2.1, p3.1, p4.1, p5.1⟩, p5.2)

/-- A concrete, executable, injective stand-in for
`sha256 ∘ json.dumps` over block fields.  Every output starts with two
zero characters, so difficulty-2 mining succeeds immediately. -/
def H₀ : HashInput → String := fun x => String.mk ('0' :: '0' :: encHI x)

/-- A concrete content hash for the storage witnesses (injectivity is never
needed for the storage claims, only functionality). -/
def SHA₀ : List Nat → String :=
  fun b => String.mk ('h' :: encLs (fun n => encN n) b)

/-- A concrete cipher for the storage witnesses (identity in the message;
any pair with `D₀ k iv (E₀ k iv m) = m` would do). -/
def E₀ : List Nat → List Nat → List Nat → List Nat := fun _ _ m => m

/-- The inverse of `E₀`. -/
def D₀ : List Nat → List Nat → List Nat → List Nat := fun _ _ c => c

/-!
Concrete states for witnesses and counterexamples.
-/

/-- A transfer transaction exactly as `transfer_document` builds it, with
sender id `"alice"`. -/
def txT : Tx :=
  [("type", JVal.str "document_transfer"), ("sender_id", JVal.str "alice"),
   ("recipient_id", JVal.str "bob"), ("document_hash", JVal.str "D"),
   ("document_name", JVal.str "n"), ("timestamp", JVal.num 3)]

/-- A fresh ledger with `txT` pending. -/
def bcOne : Blockchain :=
  Blockchain.add_transaction (Blockchain.init H₀ 0) txT

/-- Sealing `bcOne`'s pending buffer (succeeds at once under `H₀`). -/
def mineOne : Option (Blockchain × Option Block) :=
  Blockchain.mine_pending_transactions H₀ 1 bcOne 0

/-- The two-block ledger sealed from `bcOne`. -/
def bcTwo : Blockchain :=
  match mineOne with
  | some p => p.1
  | none => bcOne

/-- The sealed block of `bcTwo`. -/
def blkTwo : Block :=
  match mineOne with
  | some (_, some blk) => blk
  | _ => Blockchain.create_genesis_block H₀ 0

/-- An upload transaction exactly as `upload_document` builds it, with
user id `"alice"` and its own timestamp entry 7. -/
def txU : Tx :=
  [("type", JVal.str "document_upload"), ("user_id", JVal.str "alice"),
   ("document_hash", JVal.str "D"), ("document_name", JVal.str "n"),
   ("document_type", JVal.str "t"), ("timestamp", JVal.num 7)]

/-- A fresh ledger with `txU` pending. -/
def bcUpOne : Blockchain :=
  Blockchain.add_transaction (Blockchain.init H₀ 0) txU

/-- Sealing `bcUpOne`'s pending buffer at time 0 (so the sealed block's
timestamp 0 differs from the transaction's own entry 7). -/
def mineUp : Option (Blockchain × Option Block) :=
  Blockchain.mine_pending_transactions H₀ 1 bcUpOne 0

/-- The two-block ledger sealed from `bcUpOne`. -/
def bcUp : Blockchain :=
  match mineUp with
  | some p => p.1
  | none => bcUpOne

/-- The sealed block of `bcUp`. -/
def blkUp : Block :=
  match mineUp with
  | some (_, some blk) => blk
  | _ => Blockchain.create_genesis_block H₀ 0

/-- User record for `"alice"`. -/
def uAlice : UserData := ⟨"uidA", "alice", "a@x", "hp1", "s1", "user"⟩

/-- User record for `"bob"`. -/
def uBob : UserData := ⟨"uidB", "bob", "b@x", "hp2", "s2", "user"⟩

/-- Directory with the two users logged in under tokens `"tokA"` and
`"tokB"`. -/
def authW : UserAuth :=
  { users := fun s =>
      if s = "alice" then some uAlice
      else if s = "bob" then some uBob else none,
    sessions := fun t =>
      if t = "tokA" then some ⟨"uidA", "alice"⟩
      else if t = "tokB" then some ⟨"uidB", "bob"⟩ else none }

/-- Directory holding a session whose username is no longer registered. -/
def authDangling : UserAuth :=
  { users := fun _ => none,
    sessions := fun t => if t = "tok" then some ⟨"u1", "ghost"⟩ else none }

/-- A two-byte plaintext. -/
def contentW : List Nat := [1, 2]

/-- Alice's upload of `contentW` into an empty store. -/
def storeW : DocumentStorage × DocRecord :=
  DocumentStorage.store_document SHA₀ E₀ emptyStorage "uidA" "doc" contentW
    "txt" none [7] [9] 0

/-- The store after Alice's upload. -/
def storageW : DocumentStorage := storeW.1

/-- The record of Alice's upload. -/
def mdW : DocRecord := storeW.2

/-- The content hash of `contentW`. -/
def hashW : String := SHA₀ contentW

/-- The vault holding Alice's document, before the transfer. -/
def vaultW : EVault := ⟨Blockchain.init H₀ 0, storageW, authW⟩

/-- Alice transfers her document to `"bob"`. -/
def transferW : Except VError (EVault × DocRecord) :=
  EVault.transfer_document H₀ SHA₀ E₀ D₀ 1 vaultW "tokA" hashW "bob"
    [11] [13] 4

/-- The vault after the transfer. -/
def vaultW2 : EVault :=
  match transferW with
  | .ok p => p.1
  | .error _ => vaultW

/-- The record returned by the transfer. -/
def mdW2 : DocRecord :=
  match transferW with
  | .ok p => p.2
  | .error _ => mdW

/-- Alice transfers her document to herself (the username `"alice"` is an
existing recipient). -/
def transferSelfW : Except VError (EVault × DocRecord) :=
  EVault.transfer_document H₀ SHA₀ E₀ D₀ 1 vaultW "tokA" hashW "alice"
    [21] [22] 5

/-- The vault after the self-transfer. -/
def vaultW3 : EVault :=
  match transferSelfW with
  | .ok p => p.1
  | .error _ => vaultW

/-- The record returned by the self-transfer. -/
def mdW3 : DocRecord :=
  match transferSelfW with
  | .ok p => p.2
  | .error _ => mdW

/-- A vault whose ledger is the sealed two-block chain `bcTwo` (holding
the transfer transaction `txT` with document hash `"D"`), used to observe
`get_document_history`'s decoration concretely. -/
def vaultH : EVault := ⟨bcTwo, emptyStorage, authW⟩

/-- Spec-side description of the user scan, written from the amended
claim's words: concatenate, over the chain's blocks in order, each
block's transactions whose `"user_id"` entry equals the given id (kept in
their in-block order, one output per occurrence), each decorated with the
containing block's hash and then the block's timestamp. -/
def userScanSpec (bc : Blockchain) (user_id : String) : List Tx :=
  (bc.chain.map (fun b =>
    (b.transactions.filter
        (fun tx => decide (txGet tx "user_id" = some (JVal.str user_id)))).map
      (fun tx => txSet (txSet tx "block_hash" (JVal.str b.hash)) "timestamp"
        (JVal.num b.timestamp)))).flatten

/-- Spec-side description of the document-history scan, written from the
amended claim's words: concatenate, over the chain's blocks in order, each
block's transactions whose `"document_hash"` entry equals the given hash
(kept in their in-block order, one output per occurrence), each decorated
with the containing block's hash and then the block's index. -/
def docScanSpec (bc : Blockchain) (document_hash : String) : List Tx :=
  (bc.chain.map (fun b =>
    (b.transactions.filter
        (fun tx =>
          decide (txGet tx "document_hash" =
            some (JVal.str document_hash)))).map
      (fun tx => txSet (txSet tx "block_hash" (JVal.str b.hash)) "block_index"
        (JVal.num b.index)))).flatten

/-!
Correctness of the executable encoder, up to injectivity of `H₀`.
-/

theorem take_len_app (l r : List α) : (l ++ r).take l.length = l := by
  induction l with
  | nil => rfl
  | cons a l ih => simp [List.take_succ_cons, ih]

theorem drop_len_app (l r : List α) : (l ++ r).drop l.length = r := by
  induction l with
  | nil => rfl
  | cons a l ih => simp [ih]

theorem charsNat_natCharsAux :
    ∀ fuel n, n ≤ fuel → charsNat (natCharsAux fuel n) = n := by
  intro fuel
  induction fuel with
  | zero =>
    intro n hn
    have h0 : n = 0 := Nat.le_zero.mp hn
    subst h0; rfl
  | succ fuel ih =>
    intro n hn
    by_cases h0 : n = 0
    · subst h0; rfl
    · have hlt : n / 2 < n :=
        Nat.div_lt_self (Nat.pos_of_ne_zero h0) Nat.one_lt_two
      have hrec := ih (n / 2) (by omega)
      simp only [natCharsAux, h0, ite_false]
      by_cases hm : n % 2 = 1
      · rw [if_pos hm, charsNat, if_pos rfl, hrec]
        omega
      · rw [if_neg hm, charsNat, if_neg (by decide), hrec]
        omega

theorem charsNat_natChars (n : Nat) : charsNat (natChars n) = n :=
  charsNat_natCharsAux n n (Nat.le_refl n)

theorem mem_natCharsAux :
    ∀ fuel n c, c ∈ natCharsAux fuel n → c = '0' ∨ c = '1' := by
  intro fuel
  induction fuel with
  | zero => intro n c hc; simp [natCharsAux] at hc
  | succ fuel ih =>
    intro n c hc
    by_cases h0 : n = 0
    · simp [natCharsAux, h0] at hc
    · simp only [natCharsAux, h0, ite_false, List.mem_cons] at hc
      rcases hc with hc | hc
      · by_cases hm : n % 2 = 1 <;> simp [hm] at hc <;> simp [hc]
      · exact ih _ _ hc

theorem splitE_append (l r : List Char) (hl : ∀ c ∈ l, c ≠ 'e') :
    splitE (l ++ 'e' :: r) = (l, r) := by
  induction l with
  | nil => simp [splitE]
  | cons a l ih =>
    have ha : a ≠ 'e' := hl a (List.mem_cons_self a l)
    have ih' := ih (fun c hc => hl c (List.mem_cons_of_mem a hc))
    simp only [List.cons_append, splitE, ha, ite_false]
    rw [show (l.append ('e' :: r)) = l ++ 'e' :: r from rfl, ih']

theorem decN_encN (n : Nat) (r : List Char) : decN (encN n ++ r) = (n, r) := by
  have hne : ∀ c ∈ natChars n, c ≠ 'e' := by
    intro c hc
    rcases mem_natCharsAux n n c hc with h | h <;> subst h <;> decide
  unfold decN encN
  rw [List.append_assoc, List.singleton_append, splitE_append _ _ hne]
  show (charsNat (natChars n), r) = (n, r)
  rw [charsNat_natChars]

theorem decS_encS (s : String) (r : List Char) : decS (encS s ++ r) = (s, r) := by
  unfold decS encS
  rw [List.append_assoc, decN_encN]
  show (String.mk ((s.data ++ r).take s.length),
    (s.data ++ r).drop s.length) = (s, r)
  have hlen : s.length = s.data.length := rfl
  rw [hlen, take_len_app, drop_len_app]

theorem decJ_encJ (v : JVal) (r : List Char) : decJ (encJ v ++ r) = (v, r) := by
  cases v with
  | str s =>
    show decJ ('s' :: (encS s ++ r)) = (JVal.str s, r)
    rw [decJ, if_pos rfl, decS_encS]
  | num n =>
    show decJ ('d' :: (encN n ++ r)) = (JVal.num n, r)
    rw [decJ, if_neg (by decide), decN_encN]

theorem decP_encP (p : String × JVal) (r : List Char) :
    decP (encP p ++ r) = (p, r) := by
  unfold decP encP
  rw [List.append_assoc, decS_encS]
  show ((p.1, (decJ (encJ p.2 ++ r)).1), (decJ (encJ p.2 ++ r)).2) = (p, r)
  rw [decJ_encJ]

theorem decLs_encLs (f : α → List Char) (g : List Char → α × List Char)
    (hfg : ∀ x r, g (f x ++ r) = (x, r)) :
    ∀ (xs : List α) (r : List Char),
      decLs g xs.length (encLs f xs ++ r) = (xs, r) := by
  intro xs
  induction xs with
  | nil => intro r; rfl
  | cons x xs ih =>
    intro r
    show decLs g (xs.length + 1) ((f x ++ encLs f xs) ++ r) = (x :: xs, r)
    rw [List.append_assoc]
    rw [decLs, hfg]
    show ((x :: (decLs g xs.length (encLs f xs ++ r)).1),
      (decLs g xs.length (encLs f xs ++ r)).2) = (x :: xs, r)
    rw [ih r]

theorem decTx_encTx (tx : Tx) (r : List Char) : decTx (encTx tx ++ r) = (tx, r) := by
  unfold decTx encTx
  rw [List.append_assoc, decN_encN]
  exact decLs_encLs encP decP decP_encP tx r

theorem decTxs_encTxs (ts : List Tx) (r : List Char) :
    decTxs (encTxs ts ++ r) = (ts, r) := by
  unfold decTxs encTxs
  rw [List.append_assoc, decN_encN]
  exact decLs_encLs encTx decTx decTx_encTx ts r

theorem decHI_encHI (x : HashInput) (r : List Char) :
    decHI (encHI x ++ r) = (x, r) := by
  unfold decHI encHI
  simp only [List.append_assoc, decN_encN, decTxs_encTxs, decS_encS]

theorem encHI_inj : Function.Injective encHI := by
  intro x y hxy
  have hx := decHI_encHI x []
  have hy := decHI_encHI y []
  rw [List.append_nil] at hx hy
  have := hx.symm.trans (hxy ▸ hy)
  exact (Prod.mk.injEq _ _ _ _ ▸ this).1

theorem H₀_inj : Function.Injective H₀ := by
  intro x y hxy
  apply encHI_inj
  have : ('0' :: '0' :: encHI x) = ('0' :: '0' :: encHI y) :=
    congrArg String.data hxy
  simpa using this

/-!
Ledger lemmas: what mining preserves, how chain validity decomposes, and
the invariant maintained by the reachable ledgers.
-/

theorem mineAux_spec (H : HashInput → String) (d : Nat) :
    ∀ (fuel : Nat) (b b' : Block), mineAux H d fuel b = some b' →
      b'.index = b.index ∧ b'.timestamp = b.timestamp ∧
      b'.transactions = b.transactions ∧ b'.previous_hash = b.previous_hash ∧
      strTake b'.hash d = zeroTarget d ∧
      (b.hash = Block.calculate_hash H b →
        b'.hash = Block.calculate_hash H b') := by
  intro fuel
  induction fuel with
  | zero =>
    intro b b' h
    rw [mineAux] at h
    by_cases hc : strTake b.hash d = zeroTarget d
    · rw [if_pos hc] at h
      cases h
      exact ⟨rfl, rfl, rfl, rfl, hc, fun hh => hh⟩
    · rw [if_neg hc] at h
      simp at h
  | succ fuel ih =>
    intro b b' h
    rw [mineAux] at h
    by_cases hc : strTake b.hash d = zeroTarget d
    · rw [if_pos hc] at h
      cases h
      exact ⟨rfl, rfl, rfl, rfl, hc, fun hh => hh⟩
    · rw [if_neg hc] at h
      have hf := ih _ _ h
      refine ⟨hf.1, hf.2.1, hf.2.2.1, hf.2.2.2.1, hf.2.2.2.2.1, fun _ => ?_⟩
      exact hf.2.2.2.2.2 rfl

theorem chainValidFrom_cons (H : HashInput → String) (prev c : Block)
    (l : List Block) :
    chainValidFrom H prev (c :: l) = true ↔
      c.hash = Block.calculate_hash H c ∧ c.previous_hash = prev.hash ∧
      chainValidFrom H c l = true := by
  rw [chainValidFrom]
  by_cases h1 : c.hash = Block.calculate_hash H c <;>
    by_cases h2 : c.previous_hash = prev.hash <;> simp [h1, h2]

theorem getLast?_cons_eq (a : α) (l : List α) :
    (a :: l).getLast? = some ((a :: l).getLast (List.cons_ne_nil a l)) := by
  induction l generalizing a with
  | nil => rfl
  | cons b l ih =>
    rw [List.getLast?_cons_cons, ih b, List.getLast_cons (List.cons_ne_nil b l)]

theorem chainValidFrom_append (H : HashInput → String) (b : Block)
    (hb : b.hash = Block.calculate_hash H b) :
    ∀ (l : List Block) (prev : Block), chainValidFrom H prev l = true →
      b.previous_hash = ((prev :: l).getLast (List.cons_ne_nil prev l)).hash →
      chainValidFrom H prev (l ++ [b]) = true := by
  intro l
  induction l with
  | nil =>
    intro prev _ hlink
    have : (([prev] : List Block).getLast (List.cons_ne_nil prev [])) = prev := rfl
    rw [this] at hlink
    simp only [List.nil_append]
    rw [chainValidFrom_cons]
    exact ⟨hb, hlink, rfl⟩
  | cons c rest ih =>
    intro prev hv hlink
    rw [chainValidFrom_cons] at hv
    rw [List.cons_append, chainValidFrom_cons]
    refine ⟨hv.1, hv.2.1, ih c hv.2.2 ?_⟩
    rw [hlink, List.getLast_cons (List.cons_ne_nil c rest)]

theorem chainValidFrom_get (H : HashInput → String) :
    ∀ (l : List Block) (prev : Block), chainValidFrom H prev l = true →
      ∀ (i : Nat) (hi : i < l.length),
        (l.get ⟨i, hi⟩).hash = Block.calculate_hash H (l.get ⟨i, hi⟩) ∧
        (l.get ⟨i, hi⟩).previous_hash =
          ((prev :: l).get ⟨i, Nat.lt_succ_of_lt hi⟩).hash := by
  intro l
  induction l with
  | nil => intro prev _ i hi; exact absurd hi (by simp)
  | cons c rest ih =>
    intro prev hv i hi
    rw [chainValidFrom_cons] at hv
    match i with
    | 0 => exact ⟨hv.1, hv.2.1⟩
    | i + 1 =>
      have hi' : i < rest.length := by simpa using hi
      have := ih c hv.2.2 i hi'
      simpa using this

theorem chainValidFrom_take (H : HashInput → String) :
    ∀ (l : List Block) (prev : Block), chainValidFrom H prev l = true →
      ∀ k, chainValidFrom H prev (l.take k) = true := by
  intro l
  induction l with
  | nil => intro prev h k; simp [List.take_nil]; exact h
  | cons c rest ih =>
    intro prev hv k
    cases k with
    | zero => rfl
    | succ k =>
      rw [chainValidFrom_cons] at hv
      rw [List.take_succ_cons, chainValidFrom_cons]
      exact ⟨hv.1, hv.2.1, ih c hv.2.2 k⟩

theorem mine_pending_cases (H : HashInput → String) (fuel : Nat)
    (bc bc' : Blockchain) (now : Nat) (r : Option Block)
    (heq : Blockchain.mine_pending_transactions H fuel bc now = some (bc', r)) :
    (bc.pending_transactions = [] ∧ bc' = bc ∧ r = none) ∨
    (bc.pending_transactions ≠ [] ∧
      ∃ latest b, bc.chain.getLast? = some latest ∧
        mineAux H bc.difficulty fuel
          (Block.mk_new H (latest.index + 1) now bc.pending_transactions
            latest.hash) = some b ∧
        r = some b ∧
        bc' = { chain := bc.chain ++ [b], difficulty := bc.difficulty,
                pending_transactions := [] }) := by
  by_cases hp : bc.pending_transactions = []
  · left
    rw [Blockchain.mine_pending_transactions, if_pos hp] at heq
    have h1 : bc = bc' ∧ (none : Option Block) = r := by
      have := Option.some.inj heq
      exact ⟨congrArg Prod.fst this, congrArg Prod.snd this⟩
    exact ⟨hp, h1.1.symm, h1.2.symm⟩
  · right
    rw [Blockchain.mine_pending_transactions, if_neg hp] at heq
    rw [Blockchain.add_block] at heq
    refine ⟨hp, ?_⟩
    split at heq
    · simp at heq
    · rename_i x bc2 b2 hsc
      split at hsc
      · simp at hsc
      · rename_i latest hl
        split at hsc
        · simp at hsc
        · rename_i b hm
          injection hsc with h1
          injection h1 with ha hb
          subst ha
          subst hb
          injection heq with h2
          injection h2 with h3 h4
          exact ⟨latest, b, hl, hm, h4.symm, h3.symm⟩

theorem reachable_inv (H : HashInput → String) (bc : Blockchain)
    (h : Reachable H bc) :
    bc.chain ≠ [] ∧ Blockchain.is_chain_valid H bc = true := by
  induction h with
  | genesis now => exact ⟨by simp [Blockchain.init], rfl⟩
  | addTx tx _ ih => exact ih
  | @mine bc bc' r fuel now hr heq ih =>
    rcases mine_pending_cases _ _ _ _ _ _ heq with
      ⟨_, hbc, _⟩ | ⟨_, latest, b, hl, hm, _, hbc⟩
    · rw [hbc]; exact ih
    · have hmine := mineAux_spec H bc.difficulty fuel _ _ hm
      have hbhash : b.hash = Block.calculate_hash H b :=
        hmine.2.2.2.2.2 rfl
      have hbprev : b.previous_hash = latest.hash := hmine.2.2.2.1
      rcases ih with ⟨hne, hvalid⟩
      rw [hbc]
      cases hchain : bc.chain with
      | nil => exact absurd hchain hne
      | cons g rest =>
        refine ⟨by simp, ?_⟩
        show chainValidFrom H g (rest ++ [b]) = true
        have hvalid' : chainValidFrom H g rest = true := by
          have he : Blockchain.is_chain_valid H bc = chainValidFrom H g rest := by
            unfold Blockchain.is_chain_valid
            rw [hchain]
          rw [he] at hvalid
          exact hvalid
        apply chainValidFrom_append H b hbhash rest g hvalid'
        rw [hbprev]
        rw [hchain, getLast?_cons_eq] at hl
        exact congrArg Block.hash (Option.some.inj hl).symm

theorem getLast?_append_right (l₁ l₂ : List α) (h : l₂ ≠ []) :
    (l₁ ++ l₂).getLast? = l₂.getLast? := by
  induction l₁ with
  | nil => rfl
  | cons a l ih =>
    cases hL : l ++ l₂ with
    | nil =>
      rcases List.append_eq_nil.mp hL with ⟨_, h2⟩
      exact absurd h2 h
    | cons x xs =>
      rw [List.cons_append, hL, List.getLast?_cons_cons, ← hL, ih]

theorem getLast?_replicate_succ (n : Nat) (a : α) :
    (List.replicate (n + 1) a).getLast? = some a := by
  induction n with
  | zero => rfl
  | succ n ih =>
    rw [List.replicate_succ, List.replicate_succ, List.getLast?_cons_cons,
      ← List.replicate_succ, ih]

theorem unpad_pad (b : List Nat) : unpad (pad b) = some b := by
  have hr : b.length % 16 < 16 := Nat.mod_lt _ (by omega)
  have hk1 : 1 ≤ 16 - b.length % 16 := by omega
  have hrep : List.replicate (16 - b.length % 16) (16 - b.length % 16) ≠
      ([] : List Nat) := by
    intro hnil
    have := congrArg List.length hnil
    simp only [List.length_replicate, List.length_nil] at this
    omega
  have hlast : (pad b).getLast? = some (16 - b.length % 16) := by
    rw [pad, getLast?_append_right _ _ hrep]
    obtain ⟨m, hm⟩ : ∃ m, 16 - b.length % 16 = m + 1 :=
      ⟨15 - b.length % 16, by omega⟩
    rw [hm, getLast?_replicate_succ]
  have hlen : (pad b).length = b.length + (16 - b.length % 16) := by
    simp [pad]
  simp only [unpad, hlast, hlen]
  rw [if_neg (by omega)]
  have hsub : b.length + (16 - b.length % 16) - (16 - b.length % 16) =
      b.length := by omega
  rw [hsub, pad, drop_len_app, if_pos rfl, take_len_app]

theorem storageWF_empty (SHA : List Nat → String)
    (E : List Nat → List Nat → List Nat → List Nat) :
    StorageWF SHA E emptyStorage := by
  intro h md hm
  simp [emptyStorage] at hm

theorem storageWF_store (SHA : List Nat → String)
    (E : List Nat → List Nat → List Nat → List Nat) (S : DocumentStorage)
    (hwf : StorageWF SHA E S) (user_id document_name : String)
    (content : List Nat) (document_type : String) (key : Option (List Nat))
    (fk iv : List Nat) (now : Nat) :
    StorageWF SHA E
      (DocumentStorage.store_document SHA E S user_id document_name content
        document_type key fk iv now).1 := by
  intro h md hm
  simp only [DocumentStorage.store_document] at hm
  by_cases hh : h = SHA content
  · rw [if_pos hh] at hm
    injection hm with hmd
    subst hmd
    refine ⟨hh.symm, content, hh.symm, rfl, ?_⟩
    show (if h = SHA content then _ else _) = _
    rw [if_pos hh]
  · rw [if_neg hh] at hm
    obtain ⟨hhash, c, hc1, hc2, hc3⟩ := hwf h md hm
    refine ⟨hhash, c, hc1, hc2, ?_⟩
    show (if h = SHA content then _ else _) = _
    rw [if_neg hh]
    exact hc3

theorem retrieve_of_wf (SHA : List Nat → String)
    (E D : List Nat → List Nat → List Nat → List Nat)
    (hinv : ∀ k iv m, D k iv (E k iv m) = m) (S : DocumentStorage)
    (hwf : StorageWF SHA E S) (h : String) (md : DocRecord)
    (hm : S.metadata h = some md) :
    ∃ content, SHA content = h ∧ md.size = content.length ∧ md.hash = h ∧
      DocumentStorage.retrieve_document D S h = .ok (content, md) := by
  obtain ⟨hhash, content, hc1, hc2, hc3⟩ := hwf h md hm
  refine ⟨content, hc1, hc2, hhash, ?_⟩
  simp only [DocumentStorage.retrieve_document, hm, hc3, hinv, unpad_pad]

theorem transfer_spec (H : HashInput → String) (SHA : List Nat → String)
    (E D : List Nat → List Nat → List Nat → List Nat)
    (hinv : ∀ k iv m, D k iv (E k iv m) = m) (fuel : Nat) (v : EVault)
    (token dh recipient : String) (fk iv2 : List Nat) (now : Nat)
    (uS ru : UserData) (md : DocRecord)
    (hS : UserAuth.get_user_by_session v.auth token = some uS)
    (hRu : v.auth.users recipient = some ru)
    (hwf : StorageWF SHA E v.storage)
    (hm : v.storage.metadata dh = some md)
    (hown : md.user_id = uS.user_id) (v' : EVault) (nmd : DocRecord)
    (htr : EVault.transfer_document H SHA E D fuel v token dh recipient fk
      iv2 now = .ok (v', nmd)) :
    ∃ content, SHA content = dh ∧ md.size = content.length ∧
      DocumentStorage.retrieve_document D v.storage dh = .ok (content, md) ∧
      v'.auth = v.auth ∧
      v'.storage = (DocumentStorage.store_document SHA E v.storage ru.user_id
        md.name content md.type (some md.encryption_key) fk iv2 now).1 ∧
      nmd = (DocumentStorage.store_document SHA E v.storage ru.user_id
        md.name content md.type (some md.encryption_key) fk iv2 now).2 := by
  obtain ⟨content, hc1, hc2, _, hret⟩ :=
    retrieve_of_wf SHA E D hinv v.storage hwf dh md hm
  refine ⟨content, hc1, hc2, hret, ?_⟩
  rw [EVault.transfer_document, hS, hret] at htr
  simp only [hown, hRu] at htr
  split at htr
  · split at htr
    · exact Except.noConfusion htr
    · injection htr with hpair
      injection hpair with hv hn
      subst hv
      subst hn
      exact ⟨rfl, rfl, rfl⟩
  · rename_i hfalse
    exact absurd trivial hfalse

/-!
Claim theorems and their witnesses.
-/

/-- C8: `load()` always returns a ledger: an absent snapshot yields the
fresh ledger containing only the genesis block, and an unparsable snapshot
silently falls back to the same fresh genesis-only ledger instead of
raising. -/
theorem load_fallback_genesis (H : HashInput → String) (now : Nat) :
    load_blockchain H now none = Blockchain.init H now ∧
    load_blockchain H now (some none) = Blockchain.init H now ∧
    (Blockchain.init H now).chain = [Blockchain.create_genesis_block H now] ∧
    (Blockchain.init H now).pending_transactions = [] :=
  ⟨rfl, rfl, rfl, rfl⟩

/-- C9: `lookupBySession` returns none for an unknown token, and also when
the token is present but the username recorded in the session no longer
exists in the user directory — a dangling session never yields user
data. -/
theorem dangling_session_returns_none (a : UserAuth) (token : String) :
    (a.sessions token = none →
      UserAuth.get_user_by_session a token = none) ∧
    (∀ sd, a.sessions token = some sd → a.users sd.username = none →
      UserAuth.get_user_by_session a token = none) := by
  constructor
  · intro h
    simp only [UserAuth.get_user_by_session, h]
  · intro sd h1 h2
    simp only [UserAuth.get_user_by_session, h1, h2]

theorem dangling_session_returns_none_witness :
    authDangling.sessions "tok" = some ⟨"u1", "ghost"⟩ ∧
    authDangling.users "ghost" = none ∧
    UserAuth.get_user_by_session authDangling "tok" = none :=
  ⟨rfl, rfl,
    (dangling_session_returns_none authDangling "tok").2 ⟨"u1", "ghost"⟩ rfl rfl⟩

/-- C10: the mutating ledger operations only ever extend the chain:
`add_transaction` leaves it untouched, and a completed
`mine_pending_transactions` leaves the old chain as a prefix, never
shrinks it, and appends at most one block, at the tip, with index one more
than the old tip's.  (The query scans `is_chain_valid`,
`get_block_by_hash`, `get_transactions_by_user` are pure functions of the
state in this embedding, as in the Python methods, which only read
`self`.) -/
theorem chain_append_only (bc : Blockchain) :
    (∀ tx, (Blockchain.add_transaction bc tx).chain = bc.chain) ∧
    (∀ (H : HashInput → String) (fuel now : Nat) (bc' : Blockchain)
        (r : Option Block),
      Blockchain.mine_pending_transactions H fuel bc now = some (bc', r) →
      (∃ ext, bc'.chain = bc.chain ++ ext) ∧
      bc.chain.length ≤ bc'.chain.length ∧
      (r = none → bc' = bc) ∧
      (∀ blk, r = some blk → bc'.chain = bc.chain ++ [blk] ∧
        ∃ tip, bc.chain.getLast? = some tip ∧ blk.index = tip.index + 1 ∧
          blk.previous_hash = tip.hash)) := by
  constructor
  · intro tx
    rfl
  · intro H fuel now bc' r heq
    rcases mine_pending_cases H fuel bc bc' now r heq with
      ⟨_, hbc, hr⟩ | ⟨_, latest, b, hl, hm, hr, hbc⟩
    · subst hbc
      exact ⟨⟨[], by simp⟩, le_refl _, fun _ => rfl,
        fun blk hblk => absurd (hr ▸ hblk) (by simp)⟩
    · subst hbc
      refine ⟨⟨[b], rfl⟩, by simp, ?_, ?_⟩
      · intro hnone
        rw [hr] at hnone
        exact Option.noConfusion hnone
      · intro blk hblk
        rw [hr] at hblk
        injection hblk with hb
        subst hb
        have hmine := mineAux_spec H bc.difficulty fuel _ _ hm
        exact ⟨rfl, latest, hl, hmine.1, hmine.2.2.2.1⟩

theorem chain_append_only_witness :
    Blockchain.mine_pending_transactions H₀ 1 bcOne 0 =
      some (bcTwo, some blkTwo) ∧
    (bcTwo.chain = bcOne.chain ++ [blkTwo] ∧
      ∃ tip, bcOne.chain.getLast? = some tip ∧ blkTwo.index = tip.index + 1 ∧
        blkTwo.previous_hash = tip.hash) :=
  ⟨rfl, ((chain_append_only bcOne).2 H₀ 1 0 bcTwo (some blkTwo) rfl).2.2.2
    blkTwo rfl⟩

/-- C5: sealing with an empty pending buffer changes nothing and returns
no block; with a non-empty buffer a completed seal appends exactly one
block whose stored hash starts with `difficulty` zero hex characters,
whose `previous_hash` is the previous tip's stored hash, and it clears the
pending buffer; a fresh ledger's difficulty is 2. -/
theorem seal_empty_noop_nonempty_appends (H : HashInput → String)
    (bc : Blockchain) (now fuel : Nat) :
    (bc.pending_transactions = [] →
      Blockchain.mine_pending_transactions H fuel bc now = some (bc, none)) ∧
    (bc.pending_transactions ≠ [] →
      ∀ (bc' : Blockchain) (r : Option Block),
      Blockchain.mine_pending_transactions H fuel bc now = some (bc', r) →
      ∃ blk, r = some blk ∧ bc'.chain = bc.chain ++ [blk] ∧
        strTake blk.hash bc.difficulty = zeroTarget bc.difficulty ∧
        (∃ tip, bc.chain.getLast? = some tip ∧ blk.previous_hash = tip.hash) ∧
        bc'.pending_transactions = [] ∧ bc'.difficulty = bc.difficulty) ∧
    (Blockchain.init H now).difficulty = 2 := by
  refine ⟨?_, ?_, rfl⟩
  · intro hp
    rw [Blockchain.mine_pending_transactions, if_pos hp]
  · intro hp bc' r heq
    rcases mine_pending_cases H fuel bc bc' now r heq with
      ⟨hp', _, _⟩ | ⟨_, latest, b, hl, hm, hr, hbc⟩
    · exact absurd hp' hp
    · have hmine := mineAux_spec H bc.difficulty fuel _ _ hm
      subst hbc
      exact ⟨b, hr, rfl, hmine.2.2.2.2.1, ⟨latest, hl, hmine.2.2.2.1⟩,
        rfl, rfl⟩

theorem seal_witness :
    (Blockchain.init H₀ 0).pending_transactions = [] ∧
    Blockchain.mine_pending_transactions H₀ 1 (Blockchain.init H₀ 0) 0 =
      some (Blockchain.init H₀ 0, none) ∧
    bcOne.pending_transactions ≠ [] ∧
    (∃ blk, (some blkTwo : Option Block) = some blk ∧
      bcTwo.chain = bcOne.chain ++ [blk] ∧
      strTake blk.hash bcOne.difficulty = zeroTarget bcOne.difficulty ∧
      (∃ tip, bcOne.chain.getLast? = some tip ∧
        blk.previous_hash = tip.hash) ∧
      bcTwo.pending_transactions = [] ∧
      bcTwo.difficulty = bcOne.difficulty) :=
  ⟨rfl,
   (seal_empty_noop_nonempty_appends H₀ (Blockchain.init H₀ 0) 0 1).1 rfl,
   by decide,
   (seal_empty_noop_nonempty_appends H₀ bcOne 0 1).2.1 (by decide) bcTwo
     (some blkTwo) rfl⟩

/-- C2: two `store()` calls with identical plaintext bytes and different
owner ids yield the same `content_hash`; afterwards the store's single
slot at that hash holds the second call's record, whose owner is the
second caller — the second writer wins, with no per-owner isolation. -/
theorem store_same_bytes_second_owner_wins (SHA : List Nat → String)
    (E : List Nat → List Nat → List Nat → List Nat) (S : DocumentStorage)
    (o1 o2 n1 n2 : String) (b : List Nat) (t1 t2 : String)
    (k1 k2 : Option (List Nat)) (fk1 fk2 iv1 iv2 : List Nat)
    (now1 now2 : Nat) (hne : o1 ≠ o2) :
    (DocumentStorage.store_document SHA E S o1 n1 b t1 k1 fk1 iv1 now1).2.hash =
      (DocumentStorage.store_document SHA E
        (DocumentStorage.store_document SHA E S o1 n1 b t1 k1 fk1 iv1 now1).1
        o2 n2 b t2 k2 fk2 iv2 now2).2.hash ∧
    (DocumentStorage.store_document SHA E
        (DocumentStorage.store_document SHA E S o1 n1 b t1 k1 fk1 iv1 now1).1
        o2 n2 b t2 k2 fk2 iv2 now2).1.metadata
      (DocumentStorage.store_document SHA E S o1 n1 b t1 k1 fk1 iv1 now1).2.hash =
      some (DocumentStorage.store_document SHA E
        (DocumentStorage.store_document SHA E S o1 n1 b t1 k1 fk1 iv1 now1).1
        o2 n2 b t2 k2 fk2 iv2 now2).2 ∧
    (DocumentStorage.store_document SHA E
        (DocumentStorage.store_document SHA E S o1 n1 b t1 k1 fk1 iv1 now1).1
        o2 n2 b t2 k2 fk2 iv2 now2).2.user_id = o2 := by
  refine ⟨rfl, ?_, rfl⟩
  show (if SHA b = SHA b then _ else _) = _
  rw [if_pos rfl]
  rfl

theorem store_collapse_witness :
    ("uidA" : String) ≠ "uidB" ∧
    (DocumentStorage.store_document SHA₀ E₀ emptyStorage "uidA" "n1" [5] "t1"
        none [1] [2] 0).2.hash =
      (DocumentStorage.store_document SHA₀ E₀
        (DocumentStorage.store_document SHA₀ E₀ emptyStorage "uidA" "n1" [5]
          "t1" none [1] [2] 0).1 "uidB" "n2" [5] "t2" none [3] [4] 1).2.hash ∧
    (DocumentStorage.store_document SHA₀ E₀
        (DocumentStorage.store_document SHA₀ E₀ emptyStorage "uidA" "n1" [5]
          "t1" none [1] [2] 0).1 "uidB" "n2" [5] "t2" none [3] [4] 1).1.metadata
      (DocumentStorage.store_document SHA₀ E₀ emptyStorage "uidA" "n1" [5]
        "t1" none [1] [2] 0).2.hash =
      some (DocumentStorage.store_document SHA₀ E₀
        (DocumentStorage.store_document SHA₀ E₀ emptyStorage "uidA" "n1" [5]
          "t1" none [1] [2] 0).1 "uidB" "n2" [5] "t2" none [3] [4] 1).2 ∧
    (DocumentStorage.store_document SHA₀ E₀
        (DocumentStorage.store_document SHA₀ E₀ emptyStorage "uidA" "n1" [5]
          "t1" none [1] [2] 0).1 "uidB" "n2" [5] "t2" none [3] [4] 1).2.user_id
      = "uidB" :=
  ⟨by decide,
    store_same_bytes_second_owner_wins SHA₀ E₀ emptyStorage "uidA" "uidB"
      "n1" "n2" [5] "t1" "t2" none none [1] [3] [2] [4] 0 1 (by decide)⟩

theorem mineOne_eq :
    Blockchain.mine_pending_transactions H₀ 1 bcOne 0 =
      some (bcTwo, some blkTwo) := rfl

theorem bcTwo_reachable : Reachable H₀ bcTwo :=
  Reachable.mine 1 0 (Reachable.addTx txT (Reachable.genesis 0)) mineOne_eq

theorem mineUp_eq :
    Blockchain.mine_pending_transactions H₀ 1 bcUpOne 0 =
      some (bcUp, some blkUp) := rfl

theorem bcUp_reachable : Reachable H₀ bcUp :=
  Reachable.mine 1 0 (Reachable.addTx txU (Reachable.genesis 0)) mineUp_eq

theorem scanBlocks_eq_flatten_map (f : Block → List Tx) :
    ∀ l : List Block, scanBlocks f l = (l.map f).flatten := by
  intro l
  induction l with
  | nil => rfl
  | cons b rest ih => simp [scanBlocks, List.flatten_cons, ih]

theorem mem_scanBlocks (f : Block → List Tx) (l : List Block) (tx : Tx) :
    tx ∈ scanBlocks f l ↔ ∃ b, b ∈ l ∧ tx ∈ f b := by
  induction l with
  | nil => simp [scanBlocks]
  | cons b rest ih =>
    simp only [scanBlocks, List.mem_append, ih, List.mem_cons]
    constructor
    · rintro (h | ⟨b', hb', h⟩)
      · exact ⟨b, Or.inl rfl, h⟩
      · exact ⟨b', Or.inr hb', h⟩
    · rintro ⟨b', rfl | hb', h⟩
      · exact Or.inl h
      · exact Or.inr ⟨b', hb', h⟩

/-- C7 (amended): `get_transactions_by_user` returns exactly the in-order
concatenation, over the chain's blocks, of the transactions whose
`"user_id"` entry equals the given id (in their in-block order, one
output per occurrence) — transfer transactions carry
`sender_id`/`recipient_id` but no `user_id`, so they never appear — each
decorated with the containing block's hash and the block's timestamp
(overwriting the transaction's own timestamp, and with no block index);
the session-gated `get_document_history` returns exactly the in-order
concatenation of the transactions whose `"document_hash"` entry matches,
decorated with the block's hash and index (and no block timestamp).
Stated as list equalities against the spec-side scan descriptions
`userScanSpec`/`docScanSpec` — fixing order and multiplicity — together
with membership characterizations.  The original claim promised hash,
index and timestamp on both scans and membership of transfers in the user
scan. -/
theorem scan_characterization (bc : Blockchain) (uid : String) (tx' : Tx)
    (v : EVault) (token dh : String) (u : UserData)
    (hs : UserAuth.get_user_by_session v.auth token = some u) :
    Blockchain.get_transactions_by_user bc uid = userScanSpec bc uid ∧
    (tx' ∈ Blockchain.get_transactions_by_user bc uid ↔
      ∃ b, b ∈ bc.chain ∧ ∃ tx, tx ∈ b.transactions ∧
        txGet tx "user_id" = some (JVal.str uid) ∧
        tx' = txSet (txSet tx "block_hash" (JVal.str b.hash)) "timestamp"
          (JVal.num b.timestamp)) ∧
    EVault.get_document_history v token dh =
      .ok (docScanSpec v.blockchain dh) ∧
    (tx' ∈ docScanSpec v.blockchain dh ↔
      ∃ b, b ∈ v.blockchain.chain ∧ ∃ tx, tx ∈ b.transactions ∧
        txGet tx "document_hash" = some (JVal.str dh) ∧
        tx' = txSet (txSet tx "block_hash" (JVal.str b.hash)) "block_index"
          (JVal.num b.index)) := by
  refine ⟨?_, ?_, ?_, ?_⟩
  · rw [Blockchain.get_transactions_by_user, userScanSpec,
      scanBlocks_eq_flatten_map]
  · rw [Blockchain.get_transactions_by_user, mem_scanBlocks]
    constructor
    · rintro ⟨b, hb, htx⟩
      rw [List.mem_map] at htx
      obtain ⟨tx, htx1, htx2⟩ := htx
      rw [List.mem_filter] at htx1
      exact ⟨b, hb, tx, htx1.1, by simpa using htx1.2, htx2.symm⟩
    · rintro ⟨b, hb, tx, h1, h2, h3⟩
      refine ⟨b, hb, ?_⟩
      rw [List.mem_map]
      exact ⟨tx, List.mem_filter.mpr ⟨h1, by simpa using h2⟩, h3.symm⟩
  · simp only [EVault.get_document_history, hs]
    rw [docScanSpec, scanBlocks_eq_flatten_map]
  · rw [docScanSpec, ← scanBlocks_eq_flatten_map, mem_scanBlocks]
    constructor
    · rintro ⟨b, hb, htx⟩
      rw [List.mem_map] at htx
      obtain ⟨tx, htx1, htx2⟩ := htx
      rw [List.mem_filter] at htx1
      exact ⟨b, hb, tx, htx1.1, by simpa using htx1.2, htx2.symm⟩
    · rintro ⟨b, hb, tx, h1, h2, h3⟩
      refine ⟨b, hb, ?_⟩
      rw [List.mem_map]
      exact ⟨tx, List.mem_filter.mpr ⟨h1, by simpa using h2⟩, h3.symm⟩

set_option maxRecDepth 16384 in
/-- C7 counterexample: (i) in a reachable sealed chain holding a transfer
transaction whose sender is `"alice"`, `get_transactions_by_user "alice"`
is empty — the scan filters on the `"user_id"` key that transfer
transactions lack, so a transfer involving a user does NOT appear in that
user's scan; (ii) on a reachable chain holding an upload transaction, the
user scan's output entry carries the block's hash and the BLOCK timestamp
(the transaction's own timestamp entry 7 is overwritten by the block's 0)
and has no `"block_index"` entry; (iii) `get_document_history`'s output
entry carries the block's hash and index but keeps the transaction's own
timestamp 3 while the block's timestamp is 0 — so neither scan decorates
with all three of block hash, index and timestamp. -/
theorem transfer_tx_missing_from_user_scan :
    (Reachable H₀ bcTwo ∧
      (∃ b, b ∈ bcTwo.chain ∧ ∃ tx, tx ∈ b.transactions ∧
        txGet tx "sender_id" = some (JVal.str "alice")) ∧
      Blockchain.get_transactions_by_user bcTwo "alice" = []) ∧
    (Reachable H₀ bcUp ∧
      ∃ d, Blockchain.get_transactions_by_user bcUp "alice" = [d] ∧
        txGet d "block_hash" = some (JVal.str blkUp.hash) ∧
        txGet d "timestamp" = some (JVal.num blkUp.timestamp) ∧
        txGet txU "timestamp" = some (JVal.num 7) ∧
        blkUp.timestamp = 0 ∧
        txGet d "block_index" = none) ∧
    (∃ d, EVault.get_document_history vaultH "tokA" "D" = .ok [d] ∧
      txGet d "block_index" = some (JVal.num blkTwo.index) ∧
      txGet d "block_hash" = some (JVal.str blkTwo.hash) ∧
      txGet d "timestamp" = some (JVal.num 3) ∧
      blkTwo.timestamp = 0) :=
  ⟨⟨bcTwo_reachable, ⟨blkTwo, by decide, txT, by decide, rfl⟩, by decide⟩,
   ⟨bcUp_reachable,
    ⟨txSet (txSet txU "block_hash" (JVal.str blkUp.hash)) "timestamp"
        (JVal.num blkUp.timestamp),
      by decide, by decide, by decide, rfl, rfl, by decide⟩⟩,
   ⟨txSet (txSet txT "block_hash" (JVal.str blkTwo.hash)) "block_index"
        (JVal.num blkTwo.index),
     rfl, by decide, by decide, by decide, rfl⟩⟩

theorem scan_characterization_witness :
    UserAuth.get_user_by_session vaultW.auth "tokA" = some uAlice ∧
    (Blockchain.get_transactions_by_user bcTwo "alice" =
        userScanSpec bcTwo "alice" ∧
      (txT ∈ Blockchain.get_transactions_by_user bcTwo "alice" ↔
        ∃ b, b ∈ bcTwo.chain ∧ ∃ tx, tx ∈ b.transactions ∧
          txGet tx "user_id" = some (JVal.str "alice") ∧
          txT = txSet (txSet tx "block_hash" (JVal.str b.hash)) "timestamp"
            (JVal.num b.timestamp)) ∧
      EVault.get_document_history vaultW "tokA" "D" =
        .ok (docScanSpec vaultW.blockchain "D") ∧
      (txT ∈ docScanSpec vaultW.blockchain "D" ↔
        ∃ b, b ∈ vaultW.blockchain.chain ∧ ∃ tx, tx ∈ b.transactions ∧
          txGet tx "document_hash" = some (JVal.str "D") ∧
          txT = txSet (txSet tx "block_hash" (JVal.str b.hash)) "block_index"
            (JVal.num b.index))) :=
  ⟨rfl, scan_characterization bcTwo "alice" txT vaultW "tokA" "D" uAlice rfl⟩

/-- C4: for every byte sequence, including the empty one, retrieving by
the content hash returned from storing those bytes yields plaintext equal
to the original bytes, provided decryption inverts encryption. -/
theorem store_retrieve_roundtrip (SHA : List Nat → String)
    (E D : List Nat → List Nat → List Nat → List Nat)
    (hinv : ∀ k iv m, D k iv (E k iv m) = m) (S : DocumentStorage)
    (owner docname : String) (b : List Nat) (mime : String)
    (fk iv : List Nat) (now : Nat) :
    DocumentStorage.retrieve_document D
      (DocumentStorage.store_document SHA E S owner docname b mime none fk
        iv now).1
      (DocumentStorage.store_document SHA E S owner docname b mime none fk
        iv now).2.hash =
    .ok (b, (DocumentStorage.store_document SHA E S owner docname b mime
      none fk iv now).2) := by
  simp [DocumentStorage.store_document, DocumentStorage.retrieve_document,
    hinv, unpad_pad]

theorem chainValidFrom_set_invalid (H : HashInput → String)
    (hinj : Function.Injective H) (g : Block) (rest : List Block)
    (hvalid : chainValidFrom H g rest = true) (j : Nat) (b : Block)
    (hb : rest.get? j = some b) (m : Mutation) (hch : mutationChanges m b) :
    chainValidFrom H g (rest.set j (applyMutation m b)) = false := by
  rw [List.get?_eq_getElem?, List.getElem?_eq_some_iff] at hb
  obtain ⟨hj, hbj⟩ := hb
  subst hbj
  by_contra hcon
  have hvalid' :
      chainValidFrom H g (rest.set j (applyMutation m rest[j])) = true := by
    cases hcv : chainValidFrom H g (rest.set j (applyMutation m rest[j])) with
    | true => rfl
    | false => exact absurd hcv hcon
  have hj' : j < (rest.set j (applyMutation m rest[j])).length := by
    rw [List.length_set]
    exact hj
  have hmut := chainValidFrom_get H (rest.set j (applyMutation m rest[j])) g
    hvalid' j hj'
  have hgetm : (rest.set j (applyMutation m rest[j])).get ⟨j, hj'⟩ =
      applyMutation m rest[j] := by
    rw [List.get_eq_getElem]
    exact List.getElem_set_self _
  have horig := chainValidFrom_get H rest g hvalid j hj
  have horig1 : rest[j].hash = Block.calculate_hash H rest[j] := by
    have h := horig.1
    rwa [List.get_eq_getElem] at h
  rw [hgetm] at hmut
  have hmut1 := hmut.1
  cases m with
  | setHash v =>
    exact hch (hmut1.trans horig1.symm)
  | setIndex v =>
    have heq : H ⟨rest[j].index, rest[j].timestamp, rest[j].transactions,
        rest[j].previous_hash, rest[j].nonce⟩ =
        H ⟨v, rest[j].timestamp, rest[j].transactions,
          rest[j].previous_hash, rest[j].nonce⟩ :=
      horig1.symm.trans hmut1
    exact hch (congrArg HashInput.index (hinj heq)).symm
  | setTimestamp v =>
    have heq : H ⟨rest[j].index, rest[j].timestamp, rest[j].transactions,
        rest[j].previous_hash, rest[j].nonce⟩ =
        H ⟨rest[j].index, v, rest[j].transactions,
          rest[j].previous_hash, rest[j].nonce⟩ :=
      horig1.symm.trans hmut1
    exact hch (congrArg HashInput.timestamp (hinj heq)).symm
  | setTransactions v =>
    have heq : H ⟨rest[j].index, rest[j].timestamp, rest[j].transactions,
        rest[j].previous_hash, rest[j].nonce⟩ =
        H ⟨rest[j].index, rest[j].timestamp, v,
          rest[j].previous_hash, rest[j].nonce⟩ :=
      horig1.symm.trans hmut1
    exact hch (congrArg HashInput.transactions (hinj heq)).symm
  | setPrev v =>
    have heq : H ⟨rest[j].index, rest[j].timestamp, rest[j].transactions,
        rest[j].previous_hash, rest[j].nonce⟩ =
        H ⟨rest[j].index, rest[j].timestamp, rest[j].transactions,
          v, rest[j].nonce⟩ :=
      horig1.symm.trans hmut1
    exact hch (congrArg HashInput.previous_hash (hinj heq)).symm
  | setNonce v =>
    have heq : H ⟨rest[j].index, rest[j].timestamp, rest[j].transactions,
        rest[j].previous_hash, rest[j].nonce⟩ =
        H ⟨rest[j].index, rest[j].timestamp, rest[j].transactions,
          rest[j].previous_hash, v⟩ :=
      horig1.symm.trans hmut1
    exact hch (congrArg HashInput.nonce (hinj heq)).symm

/-- C1 (amended): every ledger reachable by genesis creation,
`add_transaction` and `mine_pending_transactions` satisfies
`is_chain_valid`; and mutating any single stored field of any block AFTER
genesis (collision-freeness of the hash assumed) makes `is_chain_valid`
false, while the chain strictly before the mutated block still validates.
The original claim's "any block" fails for the genesis block, whose own
hash the validator never rechecks. -/
theorem chain_valid_and_mutation_invalidates (H : HashInput → String)
    (hinj : Function.Injective H) (bc : Blockchain) (hr : Reachable H bc) :
    Blockchain.is_chain_valid H bc = true ∧
    ∀ (i : Nat) (m : Mutation) (b : Block), bc.chain.get? i = some b →
      1 ≤ i → mutationChanges m b →
      Blockchain.is_chain_valid H (mutateAt bc i m) = false ∧
      Blockchain.is_chain_valid H { bc with chain := bc.chain.take i } =
        true := by
  obtain ⟨hne, hvalid⟩ := reachable_inv H bc hr
  refine ⟨hvalid, ?_⟩
  intro i m b hb h1 hch
  obtain ⟨g, rest, hchain⟩ : ∃ g rest, bc.chain = g :: rest := by
    cases hx : bc.chain with
    | nil => exact absurd hx hne
    | cons g rest => exact ⟨g, rest, rfl⟩
  obtain ⟨j, rfl⟩ : ∃ j, i = j + 1 := ⟨i - 1, by omega⟩
  have hbj : rest.get? j = some b := by
    rw [hchain] at hb
    exact hb
  have hcv : chainValidFrom H g rest = true := by
    have he : Blockchain.is_chain_valid H bc = chainValidFrom H g rest := by
      unfold Blockchain.is_chain_valid
      rw [hchain]
    rw [he] at hvalid
    exact hvalid
  constructor
  · simp only [mutateAt, hb]
    have hset : bc.chain.set (j + 1) (applyMutation m b) =
        g :: rest.set j (applyMutation m b) := by
      rw [hchain]
      rfl
    rw [hset]
    show chainValidFrom H g (rest.set j (applyMutation m b)) = false
    exact chainValidFrom_set_invalid H hinj g rest hcv j b hbj m hch
  · have htake : bc.chain.take (j + 1) = g :: rest.take j := by
      rw [hchain]
      rfl
    rw [htake]
    show chainValidFrom H g (rest.take j) = true
    exact chainValidFrom_take H rest g hcv j

/-- C1 counterexample: in a reachable genesis-only ledger, mutating the
genesis block's stored nonce (with an injective hash function) leaves
`is_chain_valid` true — refuting "mutating any single stored field of any
block makes isValid() return false". -/
theorem genesis_mutation_keeps_valid :
    Function.Injective H₀ ∧ Reachable H₀ (Blockchain.init H₀ 0) ∧
    (Blockchain.init H₀ 0).chain.get? 0 =
      some (Blockchain.create_genesis_block H₀ 0) ∧
    mutationChanges (Mutation.setNonce 5)
      (Blockchain.create_genesis_block H₀ 0) ∧
    Blockchain.is_chain_valid H₀
      (mutateAt (Blockchain.init H₀ 0) 0 (Mutation.setNonce 5)) = true :=
  ⟨H₀_inj, Reachable.genesis 0, rfl, by decide, rfl⟩

theorem mutation_invalidates_witness :
    Function.Injective H₀ ∧ Reachable H₀ bcTwo ∧
    bcTwo.chain.get? 1 = some blkTwo ∧
    mutationChanges (Mutation.setIndex 99) blkTwo ∧
    Blockchain.is_chain_valid H₀ bcTwo = true ∧
    Blockchain.is_chain_valid H₀
      (mutateAt bcTwo 1 (Mutation.setIndex 99)) = false :=
  ⟨H₀_inj, bcTwo_reachable, rfl, by decide,
    (chain_valid_and_mutation_invalidates H₀ H₀_inj bcTwo bcTwo_reachable).1,
    ((chain_valid_and_mutation_invalidates H₀ H₀_inj bcTwo
      bcTwo_reachable).2 1 (Mutation.setIndex 99) blkTwo rfl (by omega)
      (by decide)).1⟩

/-- C6: a successful `transfer_document` re-stores the same plaintext
under the same symmetric key, yielding the same `content_hash`; of the
store record at that hash only the owner is switched to the recipient
among the claimed fields (content_hash, display_name, mime_type, size and
key are unchanged), and every other slot of the store is untouched. -/
theorem transfer_overwrites_owner_same_hash (H : HashInput → String)
    (SHA : List Nat → String)
    (E D : List Nat → List Nat → List Nat → List Nat)
    (hinv : ∀ k iv m, D k iv (E k iv m) = m) (fuel : Nat) (v : EVault)
    (token dh recipient : String) (fk iv2 : List Nat) (now : Nat)
    (uS ru : UserData) (md : DocRecord)
    (hS : UserAuth.get_user_by_session v.auth token = some uS)
    (hRu : v.auth.users recipient = some ru)
    (hwf : StorageWF SHA E v.storage)
    (hm : v.storage.metadata dh = some md)
    (hown : md.user_id = uS.user_id) (v' : EVault) (nmd : DocRecord)
    (htr : EVault.transfer_document H SHA E D fuel v token dh recipient fk
      iv2 now = .ok (v', nmd)) :
    nmd.hash = dh ∧ v'.storage.metadata dh = some nmd ∧
    nmd.user_id = ru.user_id ∧ nmd.name = md.name ∧ nmd.type = md.type ∧
    nmd.size = md.size ∧ nmd.encryption_key = md.encryption_key ∧
    (∃ b, DocumentStorage.retrieve_document D v.storage dh = .ok (b, md) ∧
      v'.storage.files dh = some (E md.encryption_key iv2 (pad b))) ∧
    (∀ h', h' ≠ dh → v'.storage.metadata h' = v.storage.metadata h' ∧
      v'.storage.files h' = v.storage.files h') ∧
    v'.auth = v.auth := by
  obtain ⟨content, hc1, hc2, hret, hauth, hst, hnmd⟩ :=
    transfer_spec H SHA E D hinv fuel v token dh recipient fk iv2 now uS ru
      md hS hRu hwf hm hown v' nmd htr
  rw [hst, hnmd]
  refine ⟨hc1, ?_, rfl, rfl, rfl, hc2.symm, rfl, ⟨content, hret, ?_⟩, ?_,
    hauth⟩
  · show (if dh = SHA content then _ else _) = _
    rw [if_pos hc1.symm]
    rfl
  · show (if dh = SHA content then _ else _) = _
    rw [if_pos hc1.symm]
    rfl
  · intro h' hne'
    have hcond : ¬(h' = SHA content) := fun hcontra => hne' (hcontra.trans hc1)
    constructor
    · show (if h' = SHA content then _ else _) = _
      rw [if_neg hcond]
    · show (if h' = SHA content then _ else _) = _
      rw [if_neg hcond]

theorem transfer_overwrites_owner_witness :
    mdW2.hash = hashW ∧ vaultW2.storage.metadata hashW = some mdW2 ∧
    mdW2.user_id = uBob.user_id ∧ mdW2.name = mdW.name ∧
    mdW2.type = mdW.type ∧ mdW2.size = mdW.size ∧
    mdW2.encryption_key = mdW.encryption_key ∧
    (∃ b, DocumentStorage.retrieve_document D₀ vaultW.storage hashW =
        .ok (b, mdW) ∧
      vaultW2.storage.files hashW = some (E₀ mdW.encryption_key [13] (pad b))) ∧
    (∀ h', h' ≠ hashW →
      vaultW2.storage.metadata h' = vaultW.storage.metadata h' ∧
      vaultW2.storage.files h' = vaultW.storage.files h') ∧
    vaultW2.auth = vaultW.auth :=
  transfer_overwrites_owner_same_hash H₀ SHA₀ E₀ D₀ (fun _ _ _ => rfl) 1
    vaultW "tokA" hashW "bob" [11] [13] 4 uAlice uBob mdW rfl rfl
    (storageWF_store SHA₀ E₀ emptyStorage (storageWF_empty SHA₀ E₀) "uidA"
      "doc" contentW "txt" none [7] [9] 0) rfl rfl vaultW2 mdW2 rfl

/-- C3 (amended): for every existing recipient OTHER THAN the sender,
after a successful `transfer_document` the sender's session gets Access
denied (the spec's `Unauthorized`) on `get_document`, while the
recipient's session retrieves plaintext identical to the bytes the store
returned for that hash before the transfer.  The original claim's "every
existing recipient" fails when the recipient is the sender's own
username. -/
theorem transfer_moves_retrieval_rights (H : HashInput → String)
    (SHA : List Nat → String)
    (E D : List Nat → List Nat → List Nat → List Nat)
    (hinv : ∀ k iv m, D k iv (E k iv m) = m) (fuel : Nat) (v : EVault)
    (tokenS tokenR dh recipient : String) (fk iv2 : List Nat) (now : Nat)
    (uS ru : UserData) (md : DocRecord)
    (hS : UserAuth.get_user_by_session v.auth tokenS = some uS)
    (hR : UserAuth.get_user_by_session v.auth tokenR = some ru)
    (hRu : v.auth.users recipient = some ru)
    (hdiff : ru.user_id ≠ uS.user_id)
    (hwf : StorageWF SHA E v.storage)
    (hm : v.storage.metadata dh = some md)
    (hown : md.user_id = uS.user_id) (v' : EVault) (nmd : DocRecord)
    (htr : EVault.transfer_document H SHA E D fuel v tokenS dh recipient fk
      iv2 now = .ok (v', nmd)) :
    EVault.get_document D v' tokenS dh = .error .accessDenied ∧
    ∃ b, DocumentStorage.retrieve_document D v.storage dh = .ok (b, md) ∧
      EVault.get_document D v' tokenR dh = .ok (b, nmd) ∧
      nmd.user_id = ru.user_id := by
  obtain ⟨content, hc1, hc2, hret, hauth, hst, hnmd⟩ :=
    transfer_spec H SHA E D hinv fuel v tokenS dh recipient fk iv2 now uS ru
      md hS hRu hwf hm hown v' nmd htr
  have hsm : v'.storage.metadata dh = some nmd := by
    rw [hst, hnmd]
    show (if dh = SHA content then _ else _) = _
    rw [if_pos hc1.symm]
    rfl
  have hsf : v'.storage.files dh =
      some (E md.encryption_key iv2 (pad content)) := by
    rw [hst]
    show (if dh = SHA content then _ else _) = _
    rw [if_pos hc1.symm]
    rfl
  have hkey : nmd.encryption_key = md.encryption_key := by rw [hnmd]; rfl
  have hiv : nmd.iv = iv2 := by rw [hnmd]; rfl
  have hret2 : DocumentStorage.retrieve_document D v'.storage dh =
      .ok (content, nmd) := by
    simp only [DocumentStorage.retrieve_document, hsm, hsf, hkey, hiv, hinv,
      unpad_pad]
  have huid : nmd.user_id = ru.user_id := by rw [hnmd]; rfl
  constructor
  · simp only [EVault.get_document, hauth, hS, hret2]
    rw [if_neg (by rw [huid]; exact hdiff)]
  · refine ⟨content, hret, ?_, huid⟩
    simp only [EVault.get_document, hauth, hR, hret2]
    rw [if_pos huid]

/-- C3 counterexample: the claim quantifies over EVERY existing recipient,
which includes the sender's own username.  A self-transfer succeeds, and
afterwards `get_document` with the sender's session still returns the
plaintext instead of raising Unauthorized. -/
theorem self_transfer_keeps_sender_access :
    EVault.transfer_document H₀ SHA₀ E₀ D₀ 1 vaultW "tokA" hashW "alice"
      [21] [22] 5 = .ok (vaultW3, mdW3) ∧
    EVault.get_document D₀ vaultW3 "tokA" hashW = .ok (contentW, mdW3) :=
  ⟨rfl, rfl⟩

theorem transfer_rights_witness :
    EVault.get_document D₀ vaultW2 "tokA" hashW = .error .accessDenied ∧
    ∃ b, DocumentStorage.retrieve_document D₀ vaultW.storage hashW =
        .ok (b, mdW) ∧
      EVault.get_document D₀ vaultW2 "tokB" hashW = .ok (b, mdW2) ∧
      mdW2.user_id = uBob.user_id :=
  transfer_moves_retrieval_rights H₀ SHA₀ E₀ D₀ (fun _ _ _ => rfl) 1 vaultW
    "tokA" "tokB" hashW "bob" [11] [13] 4 uAlice uBob mdW rfl rfl rfl
    (by decide)
    (storageWF_store SHA₀ E₀ emptyStorage (storageWF_empty SHA₀ E₀) "uidA"
      "doc" contentW "txt" none [7] [9] 0) rfl rfl vaultW2 mdW2 rfl

theorem roundtrip_witness :
    (∀ k iv m, D₀ k iv (E₀ k iv m) = m) ∧
    DocumentStorage.retrieve_document D₀
      (DocumentStorage.store_document SHA₀ E₀ emptyStorage "u" "nm" [] "t"
        none [1] [2] 0).1
      (DocumentStorage.store_document SHA₀ E₀ emptyStorage "u" "nm" [] "t"
        none [1] [2] 0).2.hash =
    .ok ([], (DocumentStorage.store_document SHA₀ E₀ emptyStorage "u" "nm"
      [] "t" none [1] [2] 0).2) :=
  ⟨fun _ _ _ => rfl,
    store_retrieve_roundtrip SHA₀ E₀ D₀ (fun _ _ _ => rfl) emptyStorage
      "u" "nm" [] "t" [1] [2] 0⟩

